import Mathlib

/-!
Verification of the ndnping client/server core logic.

The definitions below are a shallow embedding of `ndnping.c` and
`ndnpingserver.c`: names are kept where Lean allows it, C `long`/`int`
arithmetic is modelled with `Int`/`Nat`, C `double` arithmetic with `ℚ`,
and fallible code (the `assert` calls on the hash-table enumerator
results, abort on failure) with `Option`.
-/

/-! ## Server side: `ndnpingserver.c` -/

/-- Upcall kinds of the `ndn_upcall_kind` enumeration delivered to closures. -/
inductive UpcallKind where
  | final
  | interest
  | consumedInterest
  | content
  | interestTimedOut
  | contentUnverified
  | contentBad
  deriving DecidableEq

/-- Upcall results returned by closures (`NDN_UPCALL_RESULT_ERR`,
`NDN_UPCALL_RESULT_OK`, `NDN_UPCALL_RESULT_INTEREST_CONSUMED`). -/
inductive UpcallRes where
  | err
  | ok
  | interestConsumed
  deriving DecidableEq

/-- Characters skipped by `strtol` before the subject sequence (C `isspace`). -/
def isStrtolSpace (c : Char) : Bool :=
  c = ' ' || c = '\t' || c = '\n' || c = '\x0b' || c = '\x0c' || c = '\r'

/-- Value of a decimal digit character, `none` for a non-digit. -/
def digitVal (c : Char) : Option Nat :=
  if '0' ≤ c ∧ c ≤ '9' then some (c.toNat - '0'.toNat) else none

/-- Consume a maximal run of decimal digits, accumulating their value. -/
def parseDigits : List Char → Nat → Nat × List Char
  | [], acc => (acc, [])
  | c :: rest, acc =>
    match digitVal c with
    | some d => parseDigits rest (acc * 10 + d)
    | none => (acc, c :: rest)

/-- Model of C `strtol(s, &end, 10)` on a NUL-terminated string, returning the
parsed value and the remaining characters (`end` points at the head of the
second component; an empty second component means `*end == '\0'`).  When no
digits can be parsed, the value is `0` and `end` is the original pointer. -/
def strtol10 (s : List Char) : Int × List Char :=
  let s1 := s.dropWhile isStrtolSpace
  let signed : Bool × List Char :=
    match s1 with
    | '-' :: r => (true, r)
    | '+' :: r => (false, r)
    | _ => (false, s1)
  match signed.2 with
  | [] => (0, s)
  | c :: r =>
    match digitVal c with
    | none => (0, s)
    | some d =>
      let pr := parseDigits r d
      (if signed.1 then -(pr.1 : Int) else (pr.1 : Int), pr.2)

/-- Embedding of `ping_interest_valid` (`ndnpingserver.c`).  A name is a list
of components, each a character list.  `pfx` is the server's configured
prefix (already ending in the `ping` component); the interest is valid iff
its component count is `N + 1` or `N + 2` and `strtol` consumes its last
component entirely (stopping at the terminator) yielding a value `≥ 0`. -/
def ping_interest_valid (pfx : List (List Char)) (interest : List (List Char)) : Bool :=
  let prefix_ncomps := pfx.length
  if interest.length = prefix_ncomps + 1 ∨ interest.length = prefix_ncomps + 2 then
    let pr := strtol10 (interest.getLastD [])
    decide (pr.2 = []) && decide (0 ≤ pr.1)
  else
    false

/-- State of `struct ndn_ping_server`: response counter and freshness. -/
structure PingServer where
  count : Nat
  expire : Int
  deriving DecidableEq

/-- Embedding of `incoming_interest` (`ndnpingserver.c`).  `putRes` is the
result reported by the external `ndn_put` delivery operation (source lines
161-167: the counter is incremented after the put, and the interest is
reported consumed only when `res >= 0`). -/
def incoming_interest (server : PingServer) (kind : UpcallKind)
    (pfx interest : List (List Char)) (putRes : Int) : PingServer × UpcallRes :=
  match kind with
  | .interest =>
    if ping_interest_valid pfx interest then
      let server' : PingServer := { server with count := server.count + 1 }
      if 0 ≤ putRes then (server', .interestConsumed) else (server', .ok)
    else (server, .ok)
  | _ => (server, .ok)

/-- A concrete 3-component configured prefix. -/
def pfx3 : List (List Char) := [['a'], ['b'], ['p', 'i', 'n', 'g']]

/-- A concrete 4-component request under `pfx3` with final component `42`. -/
def req42 : List (List Char) := [['a'], ['b'], ['p', 'i', 'n', 'g'], ['4', '2']]

/-- A concrete 4-component request with final component `42x`. -/
def req42x : List (List Char) := [['a'], ['b'], ['p', 'i', 'n', 'g'], ['4', '2', 'x']]

/-- A concrete 4-component request with final component `-1`. -/
def reqNeg1 : List (List Char) := [['a'], ['b'], ['p', 'i', 'n', 'g'], ['-', '1']]

/-- C2: the server validator accepts a request iff its component count is
`N + 1` or `N + 2` (for an `N`-component configured prefix) and `strtol`
consumes its final component entirely yielding a value `≥ 0`; concretely,
with a 3-component prefix, a 4-component request ending in `42` is valid
with sequence 42, while final components `42x` and `-1`, and 6-component
requests, are all invalid. -/
theorem ping_interest_valid_iff :
    (∀ pfx interest : List (List Char),
      ping_interest_valid pfx interest = true ↔
        ((interest.length = pfx.length + 1 ∨ interest.length = pfx.length + 2) ∧
          (strtol10 (interest.getLastD [])).2 = [] ∧ 0 ≤ (strtol10 (interest.getLastD [])).1)) ∧
    ping_interest_valid pfx3 req42 = true ∧
    (strtol10 (req42.getLastD [])).1 = 42 ∧
    ping_interest_valid pfx3 req42x = false ∧
    (∀ interest : List (List Char), interest.length = 6 →
      ping_interest_valid pfx3 interest = false) ∧
    ping_interest_valid pfx3 reqNeg1 = false := by
  refine ⟨?_, by decide, by decide, by decide, ?_, by decide⟩
  · intro pfx interest
    simp only [ping_interest_valid]
    split
    case isTrue h => simp [h, Bool.and_eq_true, decide_eq_true_eq]
    case isFalse h => simp [h]
  · intro interest h6
    simp [ping_interest_valid, h6, pfx3]

/-- C2 witness: the equivalence and the 6-component rejection evaluated at
concrete requests. -/
theorem ping_interest_valid_iff_witness :
    (ping_interest_valid pfx3 req42 = true ↔
      ((req42.length = pfx3.length + 1 ∨ req42.length = pfx3.length + 2) ∧
        (strtol10 (req42.getLastD [])).2 = [] ∧ 0 ≤ (strtol10 (req42.getLastD [])).1)) ∧
    ping_interest_valid pfx3 [[], [], [], [], [], []] = false :=
  ⟨ping_interest_valid_iff.1 pfx3 req42,
    ping_interest_valid_iff.2.2.2.2.1 [[], [], [], [], [], []] (by decide)⟩

/-- C1 (amended): for a valid inbound interest the server's response counter
is incremented exactly once regardless of whether the put delivery succeeds,
and the interest is reported consumed to the caller iff the put reports
success (`res ≥ 0`); invalid interests leave the state unchanged and are
not consumed. -/
theorem incoming_interest_count (server : PingServer)
    (pfx interest : List (List Char)) (putRes : Int) :
    (ping_interest_valid pfx interest = true →
      (incoming_interest server .interest pfx interest putRes).1.count = server.count + 1 ∧
      ((incoming_interest server .interest pfx interest putRes).2 = UpcallRes.interestConsumed ↔
        0 ≤ putRes)) ∧
    (ping_interest_valid pfx interest = false →
      incoming_interest server .interest pfx interest putRes = (server, UpcallRes.ok)) := by
  constructor
  · intro hv
    by_cases hp : 0 ≤ putRes
    · simp [incoming_interest, hv, hp]
    · simp [incoming_interest, hv, hp]
  · intro hv
    simp [incoming_interest, hv]

/-- C1 counterexample: on a valid interest whose put delivery fails
(`putRes = -1`), the counter is still incremented (from 0 to 1) even though
the interest is not reported consumed — refuting the claim that the counter
is incremented only on successful delivery. -/
theorem incoming_interest_count_cex :
    (incoming_interest ⟨0, 1⟩ .interest pfx3 req42 (-1)).1.count = 1 ∧
    (incoming_interest ⟨0, 1⟩ .interest pfx3 req42 (-1)).2 = UpcallRes.ok := by
  decide

/-- C1 witness: the amended theorem applied at a successful delivery. -/
theorem incoming_interest_count_witness :
    (incoming_interest ⟨0, 1⟩ .interest pfx3 req42 1).1.count = 0 + 1 ∧
    ((incoming_interest ⟨0, 1⟩ .interest pfx3 req42 1).2 = UpcallRes.interestConsumed ↔
      (0 : Int) ≤ 1) :=
  (incoming_interest_count ⟨0, 1⟩ pfx3 req42 1).1 (by decide)

/-! ## Client side: `ndnping.c` -/

/-- A `struct timeval`: seconds and microseconds. -/
structure Timeval where
  s : Int
  us : Int
  deriving DecidableEq

/-- A `struct ndn_ping_entry` of the pending-request hash table. -/
structure PingEntry where
  number : Int
  send_time : Timeval
  deriving DecidableEq

/-- The global `struct ndn_ping_statistics sta` (C `double`s as `ℚ`). -/
structure Sta where
  sent : Nat
  received : Nat
  min : ℚ
  max : ℚ
  tsum : ℚ
  tsum2 : ℚ
  deriving DecidableEq

/-- The `struct ndn_ping_client` fields relevant to the core logic.  The
pending-request hash table is an association list from an abstract name-suffix
key to its entry. -/
structure Client where
  sent : Nat
  received : Nat
  total : Int
  number : Int
  interval : ℚ
  table : List (Nat × PingEntry)
  deriving DecidableEq

/-- Lookup in the pending-request table (the `hashtb_seek` key search). -/
def tableFind : List (Nat × PingEntry) → Nat → Option PingEntry
  | [], _ => none
  | (k, e) :: rest, key => if k = key then some e else tableFind rest key

/-- Deletion of the first entry with a given key (`hashtb_delete`). -/
def tableErase : List (Nat × PingEntry) → Nat → List (Nat × PingEntry)
  | [], _ => []
  | (k, e) :: rest, key => if k = key then rest else (k, e) :: tableErase rest key

/-- Keys of a table, in order. -/
def tableKeys (t : List (Nat × PingEntry)) : List Nat := t.map Prod.fst

/-- Embedding of `add_ndn_ping_entry`: the `assert(res == HT_NEW_ENTRY)`
makes insertion of an already-present key abort (`none`). -/
def add_ndn_ping_entry (t : List (Nat × PingEntry)) (key : Nat) (number : Int)
    (now : Timeval) : Option (List (Nat × PingEntry)) :=
  match tableFind t key with
  | some _ => none
  | none => some ((key, ⟨number, now⟩) :: t)

/-- Embedding of `get_ndn_ping_entry`: the `assert(res == HT_OLD_ENTRY)`
makes lookup of an absent key abort (`none`). -/
def get_ndn_ping_entry (t : List (Nat × PingEntry)) (key : Nat) : Option PingEntry :=
  tableFind t key

/-- Embedding of `remove_ndn_ping_entry`: asserts the key is present, then
deletes it. -/
def remove_ndn_ping_entry (t : List (Nat × PingEntry)) (key : Nat) :
    Option (List (Nat × PingEntry)) :=
  match tableFind t key with
  | some _ => some (tableErase t key)
  | none => none

/-- The RTT computation of `incoming_content` (source lines 183-184):
`(now.tv_sec - send.tv_sec) * 1000 + (now.tv_usec - send.tv_usec) / 1000`,
in C `double` arithmetic. -/
def rttOf (now send : Timeval) : ℚ :=
  ((now.s - send.s : Int) : ℚ) * 1000 + ((now.us - send.us : Int) : ℚ) / 1000

/-- External inputs consumed by one `do_ping` tick: the fresh name-suffix key
of the emitted interest, the `random()` draw, the `ndn_express_interest`
result, and the `gettimeofday` reading. -/
structure TickIn where
  key : Nat
  rnd : Int
  exprRes : Int
  now : Timeval
  deriving DecidableEq

/-- One notification delivered to the client closure: its upcall kind, the
name-suffix key it matches, and the `gettimeofday` reading at receipt. -/
structure NoteIn where
  kind : UpcallKind
  key : Nat
  now : Timeval
  deriving DecidableEq

/-- Embedding of `do_ping` (`ndnping.c`).  Returns the updated client and
statistics and the microsecond delay to the next tick (`0` meaning the
scheduled event is not re-registered); `none` models an assertion failure
inside `add_ndn_ping_entry`. -/
def do_ping (c : Client) (st : Sta) (tin : TickIn) : Option (Client × Sta × ℚ) :=
  if 0 ≤ c.total ∧ c.total ≤ (c.sent : Int) then some (c, st, 0)
  else
    let rnum : Int := if c.number < 0 then tin.rnd else c.number
    let number' : Int := if c.number < 0 then c.number else c.number + 1
    match add_ndn_ping_entry c.table tin.key rnum tin.now with
    | none => none
    | some t' =>
      some ({ c with number := number', table := t', sent := c.sent + 1 },
        { st with sent := st.sent + 1 },
        if 0 ≤ tin.exprRes then c.interval * 1000000 else 0)

/-- Embedding of `incoming_content` (`ndnping.c`).  `none` models an assertion
failure inside `get_ndn_ping_entry` or `remove_ndn_ping_entry`. -/
def incoming_content (c : Client) (st : Sta) (n : NoteIn) :
    Option (Client × Sta × UpcallRes) :=
  match n.kind with
  | .final => some (c, st, .ok)
  | .content =>
    let c1 : Client := { c with received := c.received + 1 }
    let st1 : Sta := { st with received := st.received + 1 }
    match get_ndn_ping_entry c1.table n.key with
    | none => none
    | some entry =>
      let rtt := rttOf n.now entry.send_time
      let st2 : Sta := { st1 with
        min := if rtt < st1.min then rtt else st1.min,
        max := if st1.max < rtt then rtt else st1.max,
        tsum := st1.tsum + rtt,
        tsum2 := st1.tsum2 + rtt * rtt }
      match remove_ndn_ping_entry c1.table n.key with
      | none => none
      | some t' => some ({ c1 with table := t' }, st2, .ok)
  | .interestTimedOut =>
    match get_ndn_ping_entry c.table n.key with
    | none => none
    | some _ =>
      match remove_ndn_ping_entry c.table n.key with
      | none => none
      | some t' => some ({ c with table := t' }, st, .ok)
  | _ => some (c, st, .err)

/-- One asynchronous event of a client run: a scheduler tick or an inbound
notification. -/
inductive Ev where
  | tick (tin : TickIn)
  | note (n : NoteIn)
  deriving DecidableEq

/-- Execute one event against the client and statistics state. -/
def stepEv (c : Client) (st : Sta) : Ev → Option (Client × Sta)
  | .tick tin => (do_ping c st tin).map (fun r => (r.1, r.2.1))
  | .note n => (incoming_content c st n).map (fun r => (r.1, r.2.1))

/-- Execute a sequence of events, aborting on the first assertion failure. -/
def runEvs : List Ev → Client → Sta → Option (Client × Sta)
  | [], c, st => some (c, st)
  | e :: rest, c, st =>
    match stepEv c st e with
    | none => none
    | some (c', st') => runEvs rest c' st'

/-- Initial client state built in `main` (`sent = 0, received = 0`, empty
table; `total`, `number`, `interval` from the command line). -/
def initClient (total number : Int) (interval : ℚ) : Client :=
  { sent := 0, received := 0, total := total, number := number,
    interval := interval, table := [] }

/-- Initial statistics: zeroed by `memset`, then `sta.min = INT_MAX`. -/
def initSta : Sta :=
  { sent := 0, received := 0, min := 2147483647, max := 0, tsum := 0, tsum2 := 0 }

/-- The loss computation of `print_statistics`: performed (and printed) only
under the `sta.sent > 0` guard, as `(sent - received) * 100 / sent` in
C `double` arithmetic. -/
def print_statistics_lost (st : Sta) : Option ℚ :=
  if 0 < st.sent then
    some (((st.sent : ℚ) - (st.received : ℚ)) * 100 / (st.sent : ℚ))
  else
    none

/-! ## Pending-request table lemmas -/

theorem tableFind_eq_none (t : List (Nat × PingEntry)) (k : Nat) :
    tableFind t k = none ↔ k ∉ tableKeys t := by
  induction t with
  | nil => simp [tableFind, tableKeys]
  | cons p rest ih =>
    obtain ⟨a, e⟩ := p
    by_cases h : a = k
    · subst h
      simp [tableFind, tableKeys]
    · have hne : ¬ k = a := fun hh => h hh.symm
      simp only [tableFind, if_neg h, ih, tableKeys, List.map_cons, List.mem_cons, not_or]
      tauto

theorem tableFind_isSome_of_mem (t : List (Nat × PingEntry)) (k : Nat)
    (h : k ∈ tableKeys t) : ∃ e, tableFind t k = some e := by
  induction t with
  | nil => simp [tableKeys] at h
  | cons p rest ih =>
    obtain ⟨a, e⟩ := p
    by_cases ha : a = k
    · exact ⟨e, by simp [tableFind, ha]⟩
    · have hm : k ∈ tableKeys rest := by
        simp only [tableKeys, List.map_cons, List.mem_cons] at h
        rcases h with h | h
        · exact absurd h.symm ha
        · exact h
      obtain ⟨e', he'⟩ := ih hm
      exact ⟨e', by simp [tableFind, ha, he']⟩

theorem tableErase_sublist (t : List (Nat × PingEntry)) (k : Nat) :
    List.Sublist (tableErase t k) t := by
  induction t with
  | nil => simp [tableErase]
  | cons p rest ih =>
    obtain ⟨a, e⟩ := p
    by_cases h : a = k
    · simpa [tableErase, h] using (List.Sublist.refl rest).cons (a, e)
    · simpa [tableErase, h] using ih.cons₂ (a, e)

theorem tableKeys_erase_nodup (t : List (Nat × PingEntry)) (k : Nat)
    (h : (tableKeys t).Nodup) : (tableKeys (tableErase t k)).Nodup :=
  List.Nodup.sublist (List.Sublist.map Prod.fst (tableErase_sublist t k)) h

theorem tableErase_length (t : List (Nat × PingEntry)) (k : Nat) (e : PingEntry)
    (h : tableFind t k = some e) : (tableErase t k).length + 1 = t.length := by
  induction t with
  | nil => simp [tableFind] at h
  | cons p rest ih =>
    obtain ⟨a, e'⟩ := p
    by_cases ha : a = k
    · simp [tableErase, ha]
    · simp only [tableFind, if_neg ha] at h
      simp [tableErase, ha, ← ih h]

theorem tableFind_erase_ne (t : List (Nat × PingEntry)) (k k' : Nat) (h : k' ≠ k) :
    tableFind (tableErase t k) k' = tableFind t k' := by
  induction t with
  | nil => simp [tableErase]
  | cons p rest ih =>
    obtain ⟨a, e⟩ := p
    by_cases ha : a = k
    · subst ha
      have hne : ¬ a = k' := fun hh => h hh.symm
      simp [tableErase, tableFind, hne]
    · by_cases hak : a = k'
      · subst hak
        simp [tableErase, tableFind, ha]
      · simp [tableErase, tableFind, ha, hak, ih]

theorem tableFind_erase_self (t : List (Nat × PingEntry)) (k : Nat)
    (h : (tableKeys t).Nodup) : tableFind (tableErase t k) k = none := by
  induction t with
  | nil => simp [tableErase, tableFind]
  | cons p rest ih =>
    obtain ⟨a, e⟩ := p
    simp only [tableKeys, List.map_cons, List.nodup_cons] at h
    by_cases ha : a = k
    · subst ha
      simpa [tableErase] using (tableFind_eq_none rest a).2 (by simpa [tableKeys] using h.1)
    · simp [tableErase, ha, tableFind, ha, ih h.2]

/-! ## Statistics invariant -/

/-- Run invariant tying the statistics record to the pending table: every
response matched a pending entry (so `received` plus outstanding entries never
exceeds `sent`), and the accumulated RTT sum is bracketed by the running
minimum and maximum. -/
def staInv (c : Client) (st : Sta) : Prop :=
  st.received + c.table.length ≤ st.sent ∧
  (st.received : ℚ) * st.min ≤ st.tsum ∧
  st.tsum ≤ (st.received : ℚ) * st.max

theorem staInv_init (total number : Int) (interval : ℚ) :
    staInv (initClient total number interval) initSta := by
  simp [staInv, initClient, initSta]

theorem do_ping_staInv (c : Client) (st : Sta) (tin : TickIn) (c' : Client) (st' : Sta)
    (ret : ℚ) (h : do_ping c st tin = some (c', st', ret)) (hinv : staInv c st) :
    staInv c' st' := by
  unfold do_ping at h
  split at h
  · simp only [Option.some.injEq, Prod.mk.injEq] at h
    obtain ⟨h1, h2, _⟩ := h
    subst h1
    subst h2
    exact hinv
  · unfold add_ndn_ping_entry at h
    rcases hfind : tableFind c.table tin.key with _ | e
    · rw [hfind] at h
      simp only [Option.some.injEq, Prod.mk.injEq] at h
      obtain ⟨h1, h2, _⟩ := h
      subst h1
      subst h2
      obtain ⟨ha, hb, hc⟩ := hinv
      refine ⟨?_, hb, hc⟩
      show st.received + (c.table.length + 1) ≤ st.sent + 1
      omega
    · rw [hfind] at h
      simp at h

theorem incoming_content_staInv (c : Client) (st : Sta) (n : NoteIn) (c' : Client)
    (st' : Sta) (r : UpcallRes) (h : incoming_content c st n = some (c', st', r))
    (hinv : staInv c st) : staInv c' st' := by
  obtain ⟨ha, hb, hc⟩ := hinv
  obtain ⟨kind, key, now⟩ := n
  cases kind <;>
    simp only [incoming_content, get_ndn_ping_entry, remove_ndn_ping_entry,
      Option.some.injEq, Prod.mk.injEq] at h
  case final =>
    obtain ⟨h1, h2, _⟩ := h
    subst h1
    subst h2
    exact ⟨ha, hb, hc⟩
  case interest =>
    obtain ⟨h1, h2, _⟩ := h
    subst h1
    subst h2
    exact ⟨ha, hb, hc⟩
  case consumedInterest =>
    obtain ⟨h1, h2, _⟩ := h
    subst h1
    subst h2
    exact ⟨ha, hb, hc⟩
  case contentUnverified =>
    obtain ⟨h1, h2, _⟩ := h
    subst h1
    subst h2
    exact ⟨ha, hb, hc⟩
  case contentBad =>
    obtain ⟨h1, h2, _⟩ := h
    subst h1
    subst h2
    exact ⟨ha, hb, hc⟩
  case interestTimedOut =>
    rcases hfind : tableFind c.table key with _ | e
    · rw [hfind] at h
      simp at h
    · rw [hfind] at h
      simp only [Option.some.injEq, Prod.mk.injEq] at h
      obtain ⟨h1, h2, _⟩ := h
      subst h1
      subst h2
      refine ⟨?_, hb, hc⟩
      have hlen := tableErase_length c.table key e hfind
      simp only []
      omega
  case content =>
    rcases hfind : tableFind c.table key with _ | entry
    · rw [hfind] at h
      simp at h
    · rw [hfind] at h
      simp only [Option.some.injEq, Prod.mk.injEq] at h
      obtain ⟨h1, h2, _⟩ := h
      subst h1
      subst h2
      have hlen := tableErase_length c.table key entry hfind
      have hr0 : (0 : ℚ) ≤ (st.received : ℚ) := Nat.cast_nonneg _
      set rtt := rttOf now entry.send_time with hrtt
      refine ⟨by simp only [List.length_cons]; omega, ?_, ?_⟩
      · show ((st.received + 1 : ℕ) : ℚ) * (if rtt < st.min then rtt else st.min) ≤
          st.tsum + rtt
        push_cast
        by_cases hlt : rtt < st.min
        · rw [if_pos hlt]
          have : (st.received : ℚ) * rtt ≤ (st.received : ℚ) * st.min :=
            mul_le_mul_of_nonneg_left hlt.le hr0
          nlinarith
        · rw [if_neg hlt]
          push_neg at hlt
          nlinarith
      · show st.tsum + rtt ≤
          ((st.received + 1 : ℕ) : ℚ) * (if st.max < rtt then rtt else st.max)
        push_cast
        by_cases hlt : st.max < rtt
        · rw [if_pos hlt]
          have : (st.received : ℚ) * st.max ≤ (st.received : ℚ) * rtt :=
            mul_le_mul_of_nonneg_left hlt.le hr0
          nlinarith
        · rw [if_neg hlt]
          push_neg at hlt
          nlinarith

theorem stepEv_staInv (c : Client) (st : Sta) (e : Ev) (c' : Client) (st' : Sta)
    (h : stepEv c st e = some (c', st')) (hinv : staInv c st) : staInv c' st' := by
  cases e with
  | tick tin =>
    simp only [stepEv, Option.map_eq_some'] at h
    obtain ⟨⟨c1, st1, ret⟩, hdo, heq⟩ := h
    simp only [Prod.mk.injEq] at heq
    obtain ⟨h1, h2⟩ := heq
    subst h1
    subst h2
    exact do_ping_staInv _ _ _ _ _ _ hdo hinv
  | note n =>
    simp only [stepEv, Option.map_eq_some'] at h
    obtain ⟨⟨c1, st1, r⟩, hic, heq⟩ := h
    simp only [Prod.mk.injEq] at heq
    obtain ⟨h1, h2⟩ := heq
    subst h1
    subst h2
    exact incoming_content_staInv _ _ _ _ _ _ hic hinv

theorem runEvs_staInv (evs : List Ev) : ∀ c st c' st', staInv c st →
    runEvs evs c st = some (c', st') → staInv c' st' := by
  induction evs with
  | nil =>
    intro c st c' st' hinv h
    simp only [runEvs, Option.some.injEq, Prod.mk.injEq] at h
    obtain ⟨h1, h2⟩ := h
    subst h1
    subst h2
    exact hinv
  | cons e rest ih =>
    intro c st c' st' hinv h
    simp only [runEvs] at h
    rcases hstep : stepEv c st e with _ | p
    · rw [hstep] at h
      simp at h
    · rw [hstep] at h
      obtain ⟨c1, st1⟩ := p
      exact ih c1 st1 c' st' (stepEv_staInv c st e c1 st1 hstep hinv) h

/-- C5: in every reachable client state the statistics satisfy
`received ≤ sent`, and whenever `received > 0` the running minimum and
maximum bracket the average `tsum / received`; both facts are preserved by
every emission (`do_ping`) and every receipt (`incoming_content`), since
reachability is closed under `runEvs`. -/
theorem statistics_invariants (total number : Int) (interval : ℚ) (evs : List Ev)
    (c : Client) (st : Sta)
    (hrun : runEvs evs (initClient total number interval) initSta = some (c, st)) :
    st.received ≤ st.sent ∧
    (0 < st.received →
      st.min ≤ st.tsum / (st.received : ℚ) ∧ st.tsum / (st.received : ℚ) ≤ st.max) := by
  obtain ⟨h1, h2, h3⟩ :=
    runEvs_staInv evs _ _ _ _ (staInv_init total number interval) hrun
  refine ⟨by omega, ?_⟩
  intro hrpos
  have hq : (0 : ℚ) < (st.received : ℚ) := by exact_mod_cast hrpos
  constructor
  · rw [le_div_iff hq]
    calc st.min * (st.received : ℚ) = (st.received : ℚ) * st.min := by ring
    _ ≤ st.tsum := h2
  · rw [div_le_iff hq]
    calc st.tsum ≤ (st.received : ℚ) * st.max := h3
    _ = st.max * (st.received : ℚ) := by ring

/-- C5 witness: the invariants at the initial (reachable) state. -/
theorem statistics_invariants_witness :
    initSta.received ≤ initSta.sent ∧
    (0 < initSta.received →
      initSta.min ≤ initSta.tsum / (initSta.received : ℚ) ∧
      initSta.tsum / (initSta.received : ℚ) ≤ initSta.max) :=
  statistics_invariants (-1) 0 1 [] (initClient (-1) 0 1) initSta rfl

/-- C4: in every reachable statistics state with `sent > 0`, the loss value
printed by `print_statistics` equals `(sent - received) * 100 / sent` and
lies between 0 and 100; with `sent = 0` the guard suppresses the division
entirely. -/
theorem print_statistics_loss_bounds (total number : Int) (interval : ℚ) (evs : List Ev)
    (c : Client) (st : Sta)
    (hrun : runEvs evs (initClient total number interval) initSta = some (c, st)) :
    (0 < st.sent →
      print_statistics_lost st =
        some (((st.sent : ℚ) - (st.received : ℚ)) * 100 / (st.sent : ℚ)) ∧
      ∀ l, print_statistics_lost st = some l → 0 ≤ l ∧ l ≤ 100) ∧
    (st.sent = 0 → print_statistics_lost st = none) := by
  obtain ⟨h1, _, _⟩ :=
    runEvs_staInv evs _ _ _ _ (staInv_init total number interval) hrun
  have hrs : st.received ≤ st.sent := by omega
  constructor
  · intro hpos
    refine ⟨by simp [print_statistics_lost, hpos], ?_⟩
    intro l hl
    simp only [print_statistics_lost, if_pos hpos, Option.some.injEq] at hl
    have hq : (0 : ℚ) < (st.sent : ℚ) := by exact_mod_cast hpos
    have hrq : (st.received : ℚ) ≤ (st.sent : ℚ) := by exact_mod_cast hrs
    have hrnn : (0 : ℚ) ≤ (st.received : ℚ) := Nat.cast_nonneg _
    subst hl
    constructor
    · apply div_nonneg _ hq.le
      nlinarith
    · rw [div_le_iff hq]
      nlinarith
  · intro h0
    simp [print_statistics_lost, h0]

/-- A concrete first tick: fresh key 0, draw 5, successful expression. -/
def tick0 : Ev := Ev.tick ⟨0, 5, 0, ⟨0, 0⟩⟩

/-- The client state after running `tick0` from a start number of 7. -/
def clientAfterTick : Client :=
  { sent := 1, received := 0, total := -1, number := 8, interval := 1,
    table := [(0, ⟨7, ⟨0, 0⟩⟩)] }

/-- The statistics after one emitted request. -/
def staAfterTick : Sta :=
  { sent := 1, received := 0, min := 2147483647, max := 0, tsum := 0, tsum2 := 0 }

/-- C4 witness: the loss bounds after one reachable emission (`sent = 1`). -/
theorem print_statistics_loss_bounds_witness :
    (0 < staAfterTick.sent →
      print_statistics_lost staAfterTick =
        some (((staAfterTick.sent : ℚ) - (staAfterTick.received : ℚ)) * 100 /
          (staAfterTick.sent : ℚ)) ∧
      ∀ l, print_statistics_lost staAfterTick = some l → 0 ≤ l ∧ l ≤ 100) ∧
    (staAfterTick.sent = 0 → print_statistics_lost staAfterTick = none) :=
  print_statistics_loss_bounds (-1) 7 1 [tick0] clientAfterTick staAfterTick (by decide)

/-- C6: every tick that emits (the configured total is not yet reached)
increments the sent counters exactly once at emission time, regardless of the
sign of the expression result; on expression failure the tick returns a zero
reschedule delay (stopping the send path) while still returning normally with
the new entry pending, and on success it returns the interval in
microseconds. -/
theorem do_ping_sends (c : Client) (st : Sta) (tin : TickIn)
    (hemit : ¬(0 ≤ c.total ∧ c.total ≤ (c.sent : Int)))
    (hfresh : tableFind c.table tin.key = none) :
    ∃ c' st' ret, do_ping c st tin = some (c', st', ret) ∧
      c'.sent = c.sent + 1 ∧ st'.sent = st.sent + 1 ∧
      (tin.exprRes < 0 → ret = 0) ∧
      (0 ≤ tin.exprRes → ret = c.interval * 1000000) ∧
      ∃ e, c'.table = (tin.key, e) :: c.table := by
  have hres : do_ping c st tin =
      some ({ c with
                number := if c.number < 0 then c.number else c.number + 1,
                table :=
                  (tin.key, ⟨if c.number < 0 then tin.rnd else c.number, tin.now⟩) :: c.table,
                sent := c.sent + 1 },
        { st with sent := st.sent + 1 },
        if 0 ≤ tin.exprRes then c.interval * 1000000 else 0) := by
    simp only [do_ping, add_ndn_ping_entry, hfresh, if_neg hemit]
  refine ⟨_, _, _, hres, rfl, rfl, ?_, ?_, ⟨_, rfl⟩⟩
  · intro hlt
    rw [if_neg (by omega)]
  · intro hge
    rw [if_pos hge]

/-- A concrete tick whose interest expression fails (`exprRes = -1`). -/
def failTick : TickIn := ⟨0, 5, -1, ⟨0, 0⟩⟩

/-- C6 witness: the emission properties at a concrete failing expression. -/
theorem do_ping_sends_witness :
    ∃ c' st' ret, do_ping (initClient (-1) 7 1) initSta failTick = some (c', st', ret) ∧
      c'.sent = (initClient (-1) 7 1).sent + 1 ∧ st'.sent = initSta.sent + 1 ∧
      (failTick.exprRes < 0 → ret = 0) ∧
      (0 ≤ failTick.exprRes → ret = (initClient (-1) 7 1).interval * 1000000) ∧
      ∃ e, c'.table = (failTick.key, e) :: (initClient (-1) 7 1).table :=
  do_ping_sends (initClient (-1) 7 1) initSta failTick (by decide) (by decide)

/-- C7: notifications whose kind is none of data-received, timed-out or
finalization make the client handler return an error result; whenever the
handler returns on one of the three expected kinds, it returns success. -/
theorem incoming_content_kinds (c : Client) (st : Sta) (n : NoteIn) :
    (n.kind ≠ .final → n.kind ≠ .content → n.kind ≠ .interestTimedOut →
      incoming_content c st n = some (c, st, UpcallRes.err)) ∧
    (∀ c' st' r, incoming_content c st n = some (c', st', r) →
      n.kind = .final ∨ n.kind = .content ∨ n.kind = .interestTimedOut →
      r = UpcallRes.ok) := by
  obtain ⟨kind, key, now⟩ := n
  cases kind
  case final =>
    refine ⟨fun h _ _ => absurd rfl h, ?_⟩
    intro c' st' r h _
    simp only [incoming_content, Option.some.injEq, Prod.mk.injEq] at h
    exact h.2.2.symm
  case content =>
    refine ⟨fun _ h _ => absurd rfl h, ?_⟩
    intro c' st' r h _
    simp only [incoming_content, get_ndn_ping_entry, remove_ndn_ping_entry] at h
    rcases hfind : tableFind c.table key with _ | e
    · rw [hfind] at h
      simp at h
    · rw [hfind] at h
      simp only [Option.some.injEq, Prod.mk.injEq] at h
      exact h.2.2.symm
  case interestTimedOut =>
    refine ⟨fun _ _ h => absurd rfl h, ?_⟩
    intro c' st' r h _
    simp only [incoming_content, get_ndn_ping_entry, remove_ndn_ping_entry] at h
    rcases hfind : tableFind c.table key with _ | e
    · rw [hfind] at h
      simp at h
    · rw [hfind] at h
      simp only [Option.some.injEq, Prod.mk.injEq] at h
      exact h.2.2.symm
  case interest =>
    refine ⟨fun _ _ _ => by simp [incoming_content], ?_⟩
    intro c' st' r _ hor
    rcases hor with h | h | h <;> simp at h
  case consumedInterest =>
    refine ⟨fun _ _ _ => by simp [incoming_content], ?_⟩
    intro c' st' r _ hor
    rcases hor with h | h | h <;> simp at h
  case contentUnverified =>
    refine ⟨fun _ _ _ => by simp [incoming_content], ?_⟩
    intro c' st' r _ hor
    rcases hor with h | h | h <;> simp at h
  case contentBad =>
    refine ⟨fun _ _ _ => by simp [incoming_content], ?_⟩
    intro c' st' r _ hor
    rcases hor with h | h | h <;> simp at h

/-- C7 witness: an unexpected kind returns an error result, at concrete
inputs. -/
theorem incoming_content_kinds_witness :
    incoming_content (initClient (-1) 0 1) initSta ⟨.contentBad, 0, ⟨0, 0⟩⟩ =
      some (initClient (-1) 0 1, initSta, UpcallRes.err) :=
  (incoming_content_kinds (initClient (-1) 0 1) initSta ⟨.contentBad, 0, ⟨0, 0⟩⟩).1
    (by decide) (by decide) (by decide)

/-- C8: for a data-received notification matching a pending entry, the handler
records exactly the RTT `(now.s - send.s) * 1000 + (now.us - send.us) / 1000`
milliseconds into the statistics; and any RTT computed this way is
non-negative when the clock is non-decreasing (the receipt timestamp is at or
after the send timestamp) and both readings have microseconds in
`[0, 1000000)`. -/
theorem incoming_content_rtt (c : Client) (st : Sta) (n : NoteIn) (entry : PingEntry)
    (hk : n.kind = .content) (hfind : tableFind c.table n.key = some entry) :
    (incoming_content c st n =
      some ({ c with received := c.received + 1, table := tableErase c.table n.key },
        (let rtt := ((n.now.s - entry.send_time.s : Int) : ℚ) * 1000 +
            ((n.now.us - entry.send_time.us : Int) : ℚ) / 1000
         { st with received := st.received + 1,
                   min := if rtt < st.min then rtt else st.min,
                   max := if st.max < rtt then rtt else st.max,
                   tsum := st.tsum + rtt,
                   tsum2 := st.tsum2 + rtt * rtt }),
        UpcallRes.ok)) ∧
    (∀ now send : Timeval, 0 ≤ send.us → send.us < 1000000 → 0 ≤ now.us →
      now.us < 1000000 →
      (send.s < now.s ∨ (send.s = now.s ∧ send.us ≤ now.us)) → 0 ≤ rttOf now send) := by
  constructor
  · simp [incoming_content, get_ndn_ping_entry, remove_ndn_ping_entry, hk, hfind, rttOf]
  · intro now send h1 h2 h3 h4 h5
    unfold rttOf
    rcases h5 with h5 | ⟨h5a, h5b⟩
    · have hs : (1 : ℚ) ≤ ((now.s - send.s : Int) : ℚ) := by
        exact_mod_cast (by omega : (1 : Int) ≤ now.s - send.s)
      have hus : (-999999 : ℚ) ≤ ((now.us - send.us : Int) : ℚ) := by
        exact_mod_cast (by omega : (-999999 : Int) ≤ now.us - send.us)
      linarith
    · have hs0 : ((now.s - send.s : Int) : ℚ) = 0 := by
        exact_mod_cast (by omega : now.s - send.s = (0 : Int))
      have hus : (0 : ℚ) ≤ ((now.us - send.us : Int) : ℚ) := by
        exact_mod_cast (by omega : (0 : Int) ≤ now.us - send.us)
      rw [hs0]
      have : (0 : ℚ) ≤ ((now.us - send.us : Int) : ℚ) / 1000 :=
        div_nonneg hus (by norm_num)
      linarith

/-- A concrete client with one pending entry under key 3. -/
def cWit : Client :=
  { sent := 1, received := 0, total := -1, number := -1, interval := 1,
    table := [(3, ⟨7, ⟨0, 0⟩⟩)] }

/-- A data-received notification for key 3. -/
def nWit : NoteIn := ⟨.content, 3, ⟨0, 0⟩⟩

/-- The pending entry stored under key 3 in `cWit`. -/
def eWit : PingEntry := ⟨7, ⟨0, 0⟩⟩

/-- C8 witness: the recorded-RTT equation and non-negativity at concrete
inputs. -/
theorem incoming_content_rtt_witness :
    (incoming_content cWit initSta nWit =
      some ({ cWit with received := cWit.received + 1,
                        table := tableErase cWit.table nWit.key },
        (let rtt := ((nWit.now.s - eWit.send_time.s : Int) : ℚ) * 1000 +
            ((nWit.now.us - eWit.send_time.us : Int) : ℚ) / 1000
         { initSta with received := initSta.received + 1,
                        min := if rtt < initSta.min then rtt else initSta.min,
                        max := if initSta.max < rtt then rtt else initSta.max,
                        tsum := initSta.tsum + rtt,
                        tsum2 := initSta.tsum2 + rtt * rtt }),
        UpcallRes.ok)) ∧
    (∀ now send : Timeval, 0 ≤ send.us → send.us < 1000000 → 0 ≤ now.us →
      now.us < 1000000 →
      (send.s < now.s ∨ (send.s = now.s ∧ send.us ≤ now.us)) → 0 ≤ rttOf now send) :=
  incoming_content_rtt cWit initSta nWit eWit (by decide) (by decide)

/-- C10: a timed-out notification matching a pending entry leaves the whole
statistics record unchanged and changes the client state only by removing
that entry from the pending-request table. -/
theorem incoming_content_timeout_frame (c : Client) (st : Sta) (n : NoteIn)
    (entry : PingEntry) (hk : n.kind = .interestTimedOut)
    (hfind : tableFind c.table n.key = some entry) :
    incoming_content c st n =
      some ({ c with table := tableErase c.table n.key }, st, UpcallRes.ok) := by
  simp [incoming_content, get_ndn_ping_entry, remove_ndn_ping_entry, hk, hfind]

/-- A timed-out notification for key 3. -/
def nWitTimeout : NoteIn := ⟨.interestTimedOut, 3, ⟨2, 0⟩⟩

/-- C10 witness: the frame property at a concrete pending entry. -/
theorem incoming_content_timeout_frame_witness :
    incoming_content cWit initSta nWitTimeout =
      some ({ cWit with table := tableErase cWit.table nWitTimeout.key }, initSta,
        UpcallRes.ok) :=
  incoming_content_timeout_frame cWit initSta nWitTimeout eWit (by decide) (by decide)

/-! ## Pending-request table lifecycle (trace model) -/

theorem mem_tableKeys_iff (t : List (Nat × PingEntry)) (k : Nat) :
    k ∈ tableKeys t ↔ tableFind t k ≠ none := by
  rw [Ne, tableFind_eq_none, not_not]

/-- Whether an upcall kind resolves (and hence removes) a pending entry. -/
def isResolving (k : UpcallKind) : Bool :=
  match k with
  | .content => true
  | .interestTimedOut => true
  | _ => false

/-- Well-formedness of an event trace with respect to the keys already
emitted (`em`) and already resolved (`rs`): every tick uses a fresh key, and
every content/timeout notification targets a key that was emitted, with at
most one such notification per key (the transport's 1:1 correspondence
between outstanding notifications and entries). -/
def wfTrace : List Ev → List Nat → List Nat → Bool
  | [], _, _ => true
  | .tick tin :: rest, em, rs =>
    decide (tin.key ∉ em) && wfTrace rest (tin.key :: em) rs
  | .note n :: rest, em, rs =>
    if isResolving n.kind then
      decide (n.key ∈ em) && decide (n.key ∉ rs) && wfTrace rest em (n.key :: rs)
    else wfTrace rest em rs

theorem stepEv_note_content (c : Client) (st : Sta) (key : Nat) (now : Timeval)
    (entry : PingEntry) (hfind : tableFind c.table key = some entry) :
    stepEv c st (.note ⟨.content, key, now⟩) =
      some ({ c with received := c.received + 1, table := tableErase c.table key },
        { st with received := st.received + 1,
                  min := if rttOf now entry.send_time < st.min then rttOf now entry.send_time
                    else st.min,
                  max := if st.max < rttOf now entry.send_time then rttOf now entry.send_time
                    else st.max,
                  tsum := st.tsum + rttOf now entry.send_time,
                  tsum2 := st.tsum2 + rttOf now entry.send_time * rttOf now entry.send_time }) := by
  simp [stepEv, incoming_content, get_ndn_ping_entry, remove_ndn_ping_entry, hfind]

theorem stepEv_note_timeout (c : Client) (st : Sta) (key : Nat) (now : Timeval)
    (entry : PingEntry) (hfind : tableFind c.table key = some entry) :
    stepEv c st (.note ⟨.interestTimedOut, key, now⟩) =
      some ({ c with table := tableErase c.table key }, st) := by
  simp [stepEv, incoming_content, get_ndn_ping_entry, remove_ndn_ping_entry, hfind]

theorem erase_invariants (c : Client) (em rs : List Nat) (key : Nat)
    (hnd : (tableKeys c.table).Nodup)
    (hiff : ∀ k, k ∈ tableKeys c.table ↔ (k ∈ em ∧ k ∉ rs)) :
    (tableKeys (tableErase c.table key)).Nodup ∧
    (∀ k, k ∈ tableKeys (tableErase c.table key) ↔ (k ∈ em ∧ k ∉ key :: rs)) := by
  refine ⟨tableKeys_erase_nodup _ _ hnd, ?_⟩
  intro k
  by_cases hk : k = key
  · subst hk
    have h1 : tableFind (tableErase c.table k) k = none := tableFind_erase_self _ _ hnd
    have h2 : k ∉ tableKeys (tableErase c.table k) := (tableFind_eq_none _ _).1 h1
    simp [h2]
  · rw [mem_tableKeys_iff, tableFind_erase_ne _ _ _ hk, ← mem_tableKeys_iff, hiff k]
    simp [hk]

theorem runEvs_wf_isSome (evs : List Ev) : ∀ (em rs : List Nat) (c : Client) (st : Sta),
    c.total < 0 →
    (tableKeys c.table).Nodup →
    (∀ k, k ∈ tableKeys c.table ↔ (k ∈ em ∧ k ∉ rs)) →
    (∀ k, k ∈ rs → k ∈ em) →
    wfTrace evs em rs = true →
    (runEvs evs c st).isSome = true := by
  induction evs with
  | nil =>
    intro em rs c st _ _ _ _ _
    simp [runEvs]
  | cons e rest ih =>
    intro em rs c st htot hnd hiff hsub hwf
    cases e with
    | tick tin =>
      simp only [wfTrace, Bool.and_eq_true, decide_eq_true_eq] at hwf
      obtain ⟨hfreshEm, hwf'⟩ := hwf
      have hfresh : tableFind c.table tin.key = none :=
        (tableFind_eq_none _ _).2 (fun hmem => hfreshEm ((hiff _).1 hmem).1)
      have hknotin : tin.key ∉ tableKeys c.table := (tableFind_eq_none _ _).1 hfresh
      have hnotex : ¬ (0 ≤ c.total ∧ c.total ≤ (c.sent : Int)) := by
        intro hcon
        omega
      have hres : do_ping c st tin =
          some ({ c with
                    number := if c.number < 0 then c.number else c.number + 1,
                    table := (tin.key,
                      ⟨if c.number < 0 then tin.rnd else c.number, tin.now⟩) :: c.table,
                    sent := c.sent + 1 },
            { st with sent := st.sent + 1 },
            if 0 ≤ tin.exprRes then c.interval * 1000000 else 0) := by
        simp only [do_ping, add_ndn_ping_entry, hfresh, if_neg hnotex]
      simp only [runEvs, stepEv, hres, Option.map_some']
      refine ih (tin.key :: em) rs _ _ htot ?_ ?_ ?_ hwf'
      · show (tin.key :: tableKeys c.table).Nodup
        exact List.nodup_cons.2 ⟨hknotin, hnd⟩
      · intro k
        show k ∈ tin.key :: tableKeys c.table ↔ _
        simp only [List.mem_cons]
        constructor
        · rintro (rfl | hkmem)
          · exact ⟨Or.inl rfl, fun hrs => hfreshEm (hsub _ hrs)⟩
          · obtain ⟨h1, h2⟩ := (hiff k).1 hkmem
            exact ⟨Or.inr h1, h2⟩
        · rintro ⟨rfl | hkem', hkrs⟩
          · exact Or.inl rfl
          · exact Or.inr ((hiff k).2 ⟨hkem', hkrs⟩)
      · exact fun k hk => List.mem_cons_of_mem _ (hsub k hk)
    | note n =>
      obtain ⟨kind, key, now⟩ := n
      cases kind with
      | content =>
        simp only [wfTrace, isResolving, if_pos, Bool.and_eq_true, decide_eq_true_eq] at hwf
        obtain ⟨⟨hin, hnrs⟩, hwf'⟩ := hwf
        have hkeymem : key ∈ tableKeys c.table := (hiff key).2 ⟨hin, hnrs⟩
        obtain ⟨entry, hfind⟩ := tableFind_isSome_of_mem _ _ hkeymem
        obtain ⟨hnd', hiff'⟩ := erase_invariants c em rs key hnd hiff
        simp only [runEvs, stepEv_note_content c st key now entry hfind]
        exact ih em (key :: rs) _ _ htot hnd' hiff'
          (fun k hk => (List.mem_cons.1 hk).elim (fun h => h ▸ hin) (hsub k)) hwf'
      | interestTimedOut =>
        simp only [wfTrace, isResolving, if_pos, Bool.and_eq_true, decide_eq_true_eq] at hwf
        obtain ⟨⟨hin, hnrs⟩, hwf'⟩ := hwf
        have hkeymem : key ∈ tableKeys c.table := (hiff key).2 ⟨hin, hnrs⟩
        obtain ⟨entry, hfind⟩ := tableFind_isSome_of_mem _ _ hkeymem
        obtain ⟨hnd', hiff'⟩ := erase_invariants c em rs key hnd hiff
        simp only [runEvs, stepEv_note_timeout c st key now entry hfind]
        exact ih em (key :: rs) _ _ htot hnd' hiff'
          (fun k hk => (List.mem_cons.1 hk).elim (fun h => h ▸ hin) (hsub k)) hwf'
      | final =>
        have hwf' : wfTrace rest em rs = true := by simpa [wfTrace, isResolving] using hwf
        have hstep : stepEv c st (.note ⟨.final, key, now⟩) = some (c, st) := by
          simp [stepEv, incoming_content]
        simp only [runEvs, hstep]
        exact ih em rs c st htot hnd hiff hsub hwf'
      | interest =>
        have hwf' : wfTrace rest em rs = true := by simpa [wfTrace, isResolving] using hwf
        have hstep : stepEv c st (.note ⟨.interest, key, now⟩) = some (c, st) := by
          simp [stepEv, incoming_content]
        simp only [runEvs, hstep]
        exact ih em rs c st htot hnd hiff hsub hwf'
      | consumedInterest =>
        have hwf' : wfTrace rest em rs = true := by simpa [wfTrace, isResolving] using hwf
        have hstep : stepEv c st (.note ⟨.consumedInterest, key, now⟩) = some (c, st) := by
          simp [stepEv, incoming_content]
        simp only [runEvs, hstep]
        exact ih em rs c st htot hnd hiff hsub hwf'
      | contentUnverified =>
        have hwf' : wfTrace rest em rs = true := by simpa [wfTrace, isResolving] using hwf
        have hstep : stepEv c st (.note ⟨.contentUnverified, key, now⟩) = some (c, st) := by
          simp [stepEv, incoming_content]
        simp only [runEvs, hstep]
        exact ih em rs c st htot hnd hiff hsub hwf'
      | contentBad =>
        have hwf' : wfTrace rest em rs = true := by simpa [wfTrace, isResolving] using hwf
        have hstep : stepEv c st (.note ⟨.contentBad, key, now⟩) = some (c, st) := by
          simp [stepEv, incoming_content]
        simp only [runEvs, hstep]
        exact ih em rs c st htot hnd hiff hsub hwf'

/-- C9: along every well-formed trace (fresh keys per tick, notifications in
1:1 correspondence with outstanding entries), the client run never violates a
table assertion: `add` always hits a fresh key, every lookup finds its entry,
and each entry is removed exactly once at its unique resolving notification;
conversely, a lookup of an already-removed (or never-added) key aborts via
the old-entry assertion, so no key can be looked up or removed twice. -/
theorem ping_table_lifecycle :
    (∀ evs (number : Int) (interval : ℚ) (st : Sta), wfTrace evs [] [] = true →
      (runEvs evs (initClient (-1) number interval) st).isSome = true) ∧
    (∀ c st n, (n.kind = .content ∨ n.kind = .interestTimedOut) →
      tableFind c.table n.key = none → incoming_content c st n = none) := by
  constructor
  · intro evs number interval st hwf
    refine runEvs_wf_isSome evs [] [] _ st ?_ ?_ ?_ ?_ hwf
    · norm_num [initClient]
    · simp [initClient, tableKeys]
    · simp [initClient, tableKeys]
    · simp
  · intro c st n hkind hfind
    obtain ⟨kind, key, now⟩ := n
    cases kind <;>
      simp_all [incoming_content, get_ndn_ping_entry, remove_ndn_ping_entry]

/-- A concrete well-formed trace: two fresh emissions, one response, one
timeout. -/
def wfEvs : List Ev :=
  [Ev.tick ⟨1, 0, 0, ⟨0, 0⟩⟩, Ev.tick ⟨2, 0, 0, ⟨0, 0⟩⟩,
   Ev.note ⟨.content, 1, ⟨0, 1000⟩⟩, Ev.note ⟨.interestTimedOut, 2, ⟨4, 0⟩⟩]

/-- C9 witness: the lifecycle theorem at a concrete well-formed trace, and
the abort on a lookup of an absent key. -/
theorem ping_table_lifecycle_witness :
    (runEvs wfEvs (initClient (-1) 0 1) initSta).isSome = true ∧
    incoming_content (initClient (-1) 0 1) initSta ⟨.content, 9, ⟨0, 0⟩⟩ = none :=
  ⟨ping_table_lifecycle.1 wfEvs 0 1 initSta (by decide),
    ping_table_lifecycle.2 (initClient (-1) 0 1) initSta ⟨.content, 9, ⟨0, 0⟩⟩
      (Or.inl rfl) (by decide)⟩

/-! ## Client main loop (`main`, `ndnping.c` lines 362-373) -/

/-- External inputs of one iteration of the main `while` loop: whether the
scheduled `do_ping` event is due during `ndn_schedule_run`, the inputs of
that tick, the notifications delivered by the `ndn_run` step, and the
`ndn_run` result. -/
structure Iter where
  fires : Bool
  tin : TickIn
  notes : List NoteIn
  runRes : Int
  deriving DecidableEq

/-- Loop state: client, statistics, last `ndn_run` result, and whether the
`do_ping` event is still registered with the scheduler. -/
structure LState where
  c : Client
  st : Sta
  res : Int
  eventActive : Bool
  deriving DecidableEq

/-- Process the notifications delivered by one `ndn_run` step. -/
def processNotes : List NoteIn → Client → Sta → Option (Client × Sta)
  | [], c, st => some (c, st)
  | n :: rest, c, st =>
    match incoming_content c st n with
    | none => none
    | some (c', st', _) => processNotes rest c' st'

/-- The scheduler step: fires the registered `do_ping` event when due; a
non-positive return from the event deregisters it (`ndn_schedule_run`
semantics). -/
def ndn_schedule_run (s : LState) (it : Iter) : Option (Client × Sta × Bool) :=
  if s.eventActive ∧ it.fires then
    match do_ping s.c s.st it.tin with
    | none => none
    | some (c', st', ret) => some (c', st', decide (0 < ret))
  else some (s.c, s.st, s.eventActive)

/-- The `while` condition of `main` (line 368):
`res >= 0 && (total <= 0 || sent < total || hashtb_n(table) > 0)`. -/
def loopCond (s : LState) : Bool :=
  decide (0 ≤ s.res) &&
    (decide (s.c.total ≤ 0) || decide ((s.c.sent : Int) < s.c.total) ||
      decide (0 < s.c.table.length))

/-- One iteration of the loop body (lines 370-372): advance the scheduler
under the `total <= 0 || sent < total` guard, then one blocking `ndn_run`
step, which delivers notifications and reports `res`. -/
def loopIter (s : LState) (it : Iter) : Option LState :=
  match (if s.c.total ≤ 0 ∨ (s.c.sent : Int) < s.c.total then ndn_schedule_run s it
         else some (s.c, s.st, s.eventActive)) with
  | none => none
  | some (c1, st1, ea1) =>
    match processNotes it.notes c1 st1 with
    | none => none
    | some (c2, st2) => some ⟨c2, st2, it.runRes, ea1⟩

/-- The loop of `main`: stop as soon as the condition fails. -/
def loopRun : List Iter → LState → Option LState
  | [], s => some s
  | it :: rest, s =>
    if loopCond s then
      match loopIter s it with
      | none => none
      | some s' => loopRun rest s'
    else some s

/-- The loop state on entry in `main` (`res = 0`, event just registered). -/
def initLState (total number : Int) (interval : ℚ) : LState :=
  { c := initClient total number interval, st := initSta, res := 0, eventActive := true }

theorem incoming_content_frame (c : Client) (st : Sta) (n : NoteIn) (c' : Client)
    (st' : Sta) (r : UpcallRes) (h : incoming_content c st n = some (c', st', r)) :
    c'.sent = c.sent ∧ c'.total = c.total := by
  obtain ⟨kind, key, now⟩ := n
  cases kind
  all_goals simp only [incoming_content, get_ndn_ping_entry, remove_ndn_ping_entry,
    Option.some.injEq, Prod.mk.injEq] at h
  case content =>
    rcases hfind : tableFind c.table key with _ | e
    · rw [hfind] at h
      simp at h
    · rw [hfind] at h
      simp only [Option.some.injEq, Prod.mk.injEq] at h
      obtain ⟨h1, _⟩ := h
      subst h1
      exact ⟨rfl, rfl⟩
  case interestTimedOut =>
    rcases hfind : tableFind c.table key with _ | e
    · rw [hfind] at h
      simp at h
    · rw [hfind] at h
      simp only [Option.some.injEq, Prod.mk.injEq] at h
      obtain ⟨h1, _⟩ := h
      subst h1
      exact ⟨rfl, rfl⟩
  all_goals obtain ⟨h1, _⟩ := h
  all_goals subst h1
  all_goals exact ⟨rfl, rfl⟩

theorem processNotes_sent_total (notes : List NoteIn) : ∀ c st c' st',
    processNotes notes c st = some (c', st') → c'.sent = c.sent ∧ c'.total = c.total := by
  induction notes with
  | nil =>
    intro c st c' st' h
    simp only [processNotes, Option.some.injEq, Prod.mk.injEq] at h
    obtain ⟨h1, _⟩ := h
    subst h1
    exact ⟨rfl, rfl⟩
  | cons n rest ih =>
    intro c st c' st' h
    simp only [processNotes] at h
    rcases hic : incoming_content c st n with _ | p
    · rw [hic] at h
      simp at h
    · rw [hic] at h
      obtain ⟨c1, st1, r⟩ := p
      obtain ⟨hs, ht⟩ := incoming_content_frame c st n c1 st1 r hic
      obtain ⟨hs', ht'⟩ := ih c1 st1 c' st' h
      exact ⟨hs'.trans hs, ht'.trans ht⟩

theorem do_ping_sent_le (N : Nat) (c : Client) (st : Sta) (tin : TickIn) (c' : Client)
    (st' : Sta) (ret : ℚ) (htot : c.total = (N : Int)) (hle : c.sent ≤ N)
    (h : do_ping c st tin = some (c', st', ret)) :
    c'.total = (N : Int) ∧ c'.sent ≤ N := by
  unfold do_ping at h
  split at h
  · simp only [Option.some.injEq, Prod.mk.injEq] at h
    obtain ⟨h1, _⟩ := h
    subst h1
    exact ⟨htot, hle⟩
  · rename_i hcond
    unfold add_ndn_ping_entry at h
    rcases hfind : tableFind c.table tin.key with _ | e
    · rw [hfind] at h
      simp only [Option.some.injEq, Prod.mk.injEq] at h
      obtain ⟨h1, _⟩ := h
      subst h1
      refine ⟨htot, ?_⟩
      show c.sent + 1 ≤ N
      rw [htot] at hcond
      omega
    · rw [hfind] at h
      simp at h

theorem loopIter_inv (N : Nat) (s : LState) (it : Iter) (s' : LState)
    (h : loopIter s it = some s') (htot : s.c.total = (N : Int)) (hle : s.c.sent ≤ N) :
    s'.c.total = (N : Int) ∧ s'.c.sent ≤ N := by
  unfold loopIter at h
  have hmid : ∀ c1 st1 ea1,
      (if s.c.total ≤ 0 ∨ (s.c.sent : Int) < s.c.total then ndn_schedule_run s it
       else some (s.c, s.st, s.eventActive)) = some (c1, st1, ea1) →
      c1.total = (N : Int) ∧ c1.sent ≤ N := by
    intro c1 st1 ea1 hm
    split at hm
    · unfold ndn_schedule_run at hm
      split at hm
      · rcases hdo : do_ping s.c s.st it.tin with _ | p
        · rw [hdo] at hm
          simp at hm
        · rw [hdo] at hm
          obtain ⟨c2, st2, ret⟩ := p
          simp only [Option.some.injEq, Prod.mk.injEq] at hm
          obtain ⟨h1, _⟩ := hm
          subst h1
          exact do_ping_sent_le N s.c s.st it.tin c2 st2 ret htot hle hdo
      · simp only [Option.some.injEq, Prod.mk.injEq] at hm
        obtain ⟨h1, _⟩ := hm
        subst h1
        exact ⟨htot, hle⟩
    · simp only [Option.some.injEq, Prod.mk.injEq] at hm
      obtain ⟨h1, _⟩ := hm
      subst h1
      exact ⟨htot, hle⟩
  rcases hsched : (if s.c.total ≤ 0 ∨ (s.c.sent : Int) < s.c.total then ndn_schedule_run s it
      else some (s.c, s.st, s.eventActive)) with _ | q
  · rw [hsched] at h
    simp at h
  · rw [hsched] at h
    obtain ⟨c1, st1, ea1⟩ := q
    obtain ⟨ht1, hl1⟩ := hmid c1 st1 ea1 hsched
    rcases hpn : processNotes it.notes c1 st1 with _ | p
    · simp only [hpn] at h
      exact Option.noConfusion h
    · simp only [hpn] at h
      obtain ⟨c2, st2⟩ := p
      simp only [Option.some.injEq] at h
      subst h
      obtain ⟨hs2, ht2⟩ := processNotes_sent_total it.notes c1 st1 c2 st2 hpn
      exact ⟨ht2.trans ht1, hs2 ▸ hl1⟩

theorem loopRun_inv (N : Nat) (iters : List Iter) : ∀ s s',
    loopRun iters s = some s' → s.c.total = (N : Int) → s.c.sent ≤ N →
    s'.c.total = (N : Int) ∧ s'.c.sent ≤ N := by
  induction iters with
  | nil =>
    intro s s' h h1 h2
    simp only [loopRun, Option.some.injEq] at h
    subst h
    exact ⟨h1, h2⟩
  | cons it rest ih =>
    intro s s' h h1 h2
    simp only [loopRun] at h
    by_cases hc : loopCond s
    · rw [if_pos hc] at h
      rcases hit : loopIter s it with _ | s1
      · rw [hit] at h
        simp at h
      · rw [hit] at h
        obtain ⟨h1', h2'⟩ := loopIter_inv N s it s1 hit h1 h2
        exact ih s1 s' h h1' h2'
    · rw [if_neg hc] at h
      simp only [Option.some.injEq] at h
      subst h
      exact ⟨h1, h2⟩

/-- C3 (amended): for a client run with configured total `N > 0`, `sent`
never exceeds `N` in any reachable loop state; whenever the loop condition
fails (the loop terminates), either the transport step reported failure
(`res < 0`) or `sent = N` and the pending-request table is empty; and a tick
taken once the total is reached emits no request and increments no counter
(the state is returned unchanged with a zero delay). -/
theorem do_ping_loop_bounds (N : Nat) (hN : 0 < N) (number : Int) (interval : ℚ)
    (iters : List Iter) (s : LState)
    (hrun : loopRun iters (initLState (N : Int) number interval) = some s) :
    s.c.sent ≤ N ∧
    (loopCond s = false → s.res < 0 ∨ (s.c.sent = N ∧ s.c.table = [])) ∧
    (∀ c st tin, 0 ≤ c.total → c.total ≤ (c.sent : Int) →
      do_ping c st tin = some (c, st, 0)) := by
  obtain ⟨htot, hle⟩ := loopRun_inv N iters _ s hrun (by simp [initLState, initClient])
    (by simp [initLState, initClient])
  refine ⟨hle, ?_, ?_⟩
  · intro hcf
    have hcf' : ¬(0 ≤ s.res ∧ (s.c.total ≤ 0 ∨ (s.c.sent : Int) < s.c.total ∨
        0 < s.c.table.length)) := by
      rintro ⟨ha, hb⟩
      have hct : loopCond s = true := by
        simp only [loopCond, Bool.and_eq_true, Bool.or_eq_true, decide_eq_true_eq]
        refine ⟨ha, ?_⟩
        rcases hb with hb | hb | hb
        · exact Or.inl (Or.inl hb)
        · exact Or.inl (Or.inr hb)
        · exact Or.inr hb
      rw [hct] at hcf
      exact Bool.noConfusion hcf
    rcases not_and_or.1 hcf' with hres | hor
    · left
      omega
    · right
      push_neg at hor
      obtain ⟨ht0, hsl, hlen⟩ := hor
      constructor
      · rw [htot] at hsl
        omega
      · exact List.length_eq_zero.1 (by omega)
  · intro c st tin h1 h2
    unfold do_ping
    rw [if_pos ⟨h1, h2⟩]

/-- A loop iteration whose tick's interest expression and whose transport
step both fail. -/
def cexIter : Iter := { fires := true, tin := ⟨0, 0, -1, ⟨0, 0⟩⟩, notes := [], runRes := -1 }

/-- C3 counterexample: with configured total 2, after one iteration whose
`ndn_run` step reported failure the loop terminates (its condition is false
with input remaining) in a state with `sent = 1 ≠ 2` and one pending table
entry — refuting the claim that the loop terminates only with `sent == N`
and an empty table. -/
theorem do_ping_loop_bounds_cex :
    (loopRun [cexIter, cexIter] (initLState 2 0 1)).map
      (fun s => (loopCond s, s.c.sent, s.c.table.length)) = some (false, 1, 1) := by
  decide

/-- The loop state after the single effective iteration of the
counterexample run. -/
def cexFinal : LState :=
  { c := { sent := 1, received := 0, total := 2, number := 1, interval := 1,
           table := [(0, ⟨0, ⟨0, 0⟩⟩)] },
    st := { sent := 1, received := 0, min := 2147483647, max := 0, tsum := 0, tsum2 := 0 },
    res := -1, eventActive := false }

/-- C3 witness: the amended bounds at the concrete counterexample run. -/
theorem do_ping_loop_bounds_witness :
    cexFinal.c.sent ≤ 2 ∧
    (loopCond cexFinal = false → cexFinal.res < 0 ∨
      (cexFinal.c.sent = 2 ∧ cexFinal.c.table = [])) ∧
    (∀ c st tin, 0 ≤ c.total → c.total ≤ (c.sent : Int) →
      do_ping c st tin = some (c, st, 0)) :=
  do_ping_loop_bounds 2 (by norm_num) 0 1 [cexIter, cexIter] cexFinal (by decide)
